import Mathlib

/-!
# Range-to-servo control loop (`src/main.cpp`)

A shallow embedding of the sketch's `setup()` and `loop()`.

* Hardware calls are recorded as a list of `Event`s, in program order.
* The value stored in `long duration` is the input of one cycle.
* `float` and `double` values are exact rationals; every arithmetic operation and every
  conversion is followed by IEEE 754 round-to-nearest-even into the destination format
  (`Fmt.rnd`).  `float` is binary32.  `double` is binary32 on 8-bit AVR boards and binary64
  on the other Arduino cores, so the `double` format is the parameter `Target`.
  `Fmt.rnd` has no overflow case: every value computed from a 32- or 64-bit `long` stays far
  below the largest finite number of either format (`distance_in_range`).
* The text put on the serial channel is produced by the Arduino core, which is not part of
  the sketch; `printFloat` and `serialText` model its default rendering of a `float` (two
  digits after the point), in the same `double` arithmetic.
-/

/-- A binary floating-point format: precision in bits and smallest normal exponent. -/
structure Fmt where
  prec : ℕ
  emin : ℤ

/-- IEEE 754 binary32. -/
def binary32 : Fmt := ⟨24, -126⟩

/-- IEEE 754 binary64. -/
def binary64 : Fmt := ⟨53, -1022⟩

/-- Nearest integer, ties to the even one. -/
def roundNE (q : ℚ) : ℤ :=
  let f := ⌊q⌋
  let r := q - f
  if r < 1 / 2 then f
  else if 1 / 2 < r then f + 1
  else if f % 2 = 0 then f else f + 1

/-- Exponent of the binade of `q`, clamped to the subnormal range. -/
def Fmt.expOf (F : Fmt) (q : ℚ) : ℤ := max (Int.log 2 |q|) F.emin

/-- Spacing of the format's values around `q`. -/
def Fmt.ulp (F : Fmt) (q : ℚ) : ℚ := 2 ^ (F.expOf q - F.prec + 1)

/-- Round-to-nearest-even into the format. -/
def Fmt.rnd (F : Fmt) (q : ℚ) : ℚ := roundNE (q / F.ulp q) * F.ulp q

/-- Rounding to the grid of multiples of `2 ^ u` (auxiliary, used in proofs). -/
def gridRnd (u : ℤ) (x : ℚ) : ℚ := roundNE (x / 2 ^ u) * 2 ^ u

/-- Values of the format: an integer significand below `2 ^ prec` scaled by a power of two
not below the smallest subnormal exponent. -/
def Fmt.Rep (F : Fmt) (q : ℚ) : Prop :=
  ∃ m k : ℤ, |m| < 2 ^ F.prec ∧ F.emin - F.prec + 1 ≤ k ∧ q = (m : ℚ) * 2 ^ k

/-- Width of `double` on the board the sketch is built for. -/
inductive Target where
  | avr
  | wide
deriving DecidableEq, Repr

/-- The format of `double`. -/
def Target.double : Target → Fmt
  | .avr => binary32
  | .wide => binary64

/-- Digital levels `LOW` and `HIGH`. -/
inductive Level where
  | LOW
  | HIGH
deriving DecidableEq, Repr

/-- Pin directions. -/
inductive PinMode where
  | INPUT
  | OUTPUT
deriving DecidableEq, Repr

/-- Calls into the Arduino core and the Servo library, as they appear in `main.cpp`. -/
inductive Event where
  | pinMode (pin : ℕ) (mode : PinMode)
  | servoAttach (pin : ℕ)
  | serialBegin (baud : ℕ)
  | digitalWrite (pin : ℕ) (v : Level)
  | delayMicroseconds (us : ℕ)
  | pulseIn (pin : ℕ) (v : Level)
  | servoWrite (angle : ℤ)
  | serialPrint (s : String)
  | serialPrintFloat (x : ℚ)
  | serialPrintln (s : String)
  | delay (ms : ℕ)
deriving DecidableEq

/-- `int trg_pin = 8;` -/
def trg_pin : ℕ := 8

/-- `int ech_pin = 10;` -/
def ech_pin : ℕ := 10

/-- `setup()`, lines 38-43. -/
def setup : List Event :=
  [.pinMode trg_pin .OUTPUT, .pinMode ech_pin .INPUT, .servoAttach 5, .serialBegin 9600]

/-- The constant `(0.0343/2)` of line 71: the literal rounded to `double`, divided by the
`int` 2 converted to `double`, the quotient rounded to `double`. -/
def factor (D : Fmt) : ℚ := D.rnd (D.rnd (343 / 10000) / D.rnd 2)

/-- Line 71, `float distance = duration*(0.0343/2);`: `duration` converted to `double`,
multiplied in `double`, the product converted to `float`. -/
def distance (T : Target) (duration : ℤ) : ℚ :=
  binary32.rnd (T.double.rnd (T.double.rnd duration * factor T.double))

/-- Lines 72-77: the servo call chosen by `if(distance<=15)`; the `int` 15 converts to
`float` exactly, so the comparison is the one on the rationals. -/
def servoStep (distance : ℚ) : List Event :=
  if distance ≤ 15 then [.servoWrite 180] else [.servoWrite 0]

/-- One execution of `loop()`, lines 64-82, for the value `pulseIn` stored in `duration`. -/
def loop (T : Target) (duration : ℤ) : List Event :=
  [.digitalWrite trg_pin .HIGH,
   .delayMicroseconds 2,
   .digitalWrite trg_pin .LOW,
   .delayMicroseconds 10,
   .digitalWrite trg_pin .HIGH,
   .pulseIn ech_pin .HIGH]
  ++ servoStep (distance T duration)
  ++ [.serialPrint "Distance",
      .serialPrintFloat (distance T duration),
      .serialPrintln "CM",
      .delay 100]

/-- Consecutive executions of `loop()`, one per measured duration. -/
def cycles (T : Target) : List ℤ → List Event
  | [] => []
  | d :: ds => loop T d ++ cycles T ds

/-- The whole run: `setup()` once, then `loop()` repeatedly. -/
def program (T : Target) (ds : List ℤ) : List Event := setup ++ cycles T ds

/-- The angles passed to `myservo.write`, in order. -/
def servoWrites : List Event → List ℤ
  | [] => []
  | .servoWrite a :: es => a :: servoWrites es
  | _ :: es => servoWrites es

/-- The levels written to the trigger pin, in order. -/
def trgWrites : List Event → List Level
  | [] => []
  | .digitalWrite p v :: es => if p = trg_pin then v :: trgWrites es else trgWrites es
  | _ :: es => trgWrites es

/-- The events issued before the first `pulseIn`. -/
def beforeMeasure : List Event → List Event
  | [] => []
  | .pulseIn _ _ :: _ => []
  | e :: es => e :: beforeMeasure es

/-- The events issued after the first `pulseIn`. -/
def afterMeasure : List Event → List Event
  | [] => []
  | .pulseIn _ _ :: es => es
  | _ :: es => afterMeasure es

/-- The calls on the serial channel, in order. -/
def serialEvents : List Event → List Event
  | [] => []
  | .serialPrint s :: es => .serialPrint s :: serialEvents es
  | .serialPrintFloat x :: es => .serialPrintFloat x :: serialEvents es
  | .serialPrintln s :: es => .serialPrintln s :: serialEvents es
  | _ :: es => serialEvents es

/-- Microseconds spent in `delayMicroseconds` and `delay` calls. -/
def delayedMicros : List Event → ℕ
  | [] => 0
  | .delayMicroseconds us :: es => us + delayedMicros es
  | .delay ms :: es => 1000 * ms + delayedMicros es
  | _ :: es => delayedMicros es

/-- Delay accumulated before cycle `n` of a run starts. -/
def startOf (T : Target) (ds : List ℤ) (n : ℕ) : ℕ := delayedMicros (cycles T (ds.take n))

/-- Trigger-line state while scanning the events before the measurement: the level last
written, the microseconds waited at that level, and the widths of the completed HIGH pulses
(a HIGH write, the waits that follow it, a LOW write). -/
structure TrgState where
  level : Option Level
  held : ℕ
  pulses : List ℕ

/-- Effect of one event on the trigger-line state. -/
def TrgState.step (s : TrgState) : Event → TrgState
  | .digitalWrite p v =>
    if p = trg_pin then
      match s.level, v with
      | some .HIGH, .LOW => ⟨some .LOW, 0, s.pulses ++ [s.held]⟩
      | some .HIGH, .HIGH => s
      | some .LOW, .LOW => s
      | _, v => ⟨some v, 0, s.pulses⟩
    else s
  | .delayMicroseconds us => { s with held := s.held + us }
  | .delay ms => { s with held := s.held + 1000 * ms }
  | _ => s

/-- Trigger-line state at the moment `pulseIn` is called. -/
def trgAtMeasure (es : List Event) : TrgState :=
  (beforeMeasure es).foldl TrgState.step ⟨none, 0, []⟩

/-- The spec's reading of the distance, `duration * 0.01715`, evaluated like line 71. -/
def distanceSpec (T : Target) (duration : ℤ) : ℚ :=
  binary32.rnd (T.double.rnd (T.double.rnd duration * T.double.rnd (1715 / 100000)))

/-- The doc comment's reading, `duration * 0.0343 / 2`, evaluated left to right in `double`
and stored in a `float`. -/
def distanceDoc (T : Target) (duration : ℤ) : ℚ :=
  binary32.rnd (T.double.rnd
    (T.double.rnd (T.double.rnd duration * T.double.rnd (343 / 10000)) / T.double.rnd 2))

/-- Lines 78-80: the three calls on the serial channel, for the computed distance. -/
def telemetry (distance : ℚ) : List Event :=
  [.serialPrint "Distance", .serialPrintFloat distance, .serialPrintln "CM"]

/-- Modelled from the spec: the rounding term of the platform's default float-to-text
rendering (the Arduino core's `Print::printFloat`, not under src/): `0.5` divided by `10.0`
once per digit, in `double`. -/
def roundingTerm (D : Fmt) : ℕ → ℚ
  | 0 => D.rnd (1 / 2)
  | n + 1 => D.rnd (roundingTerm D n / D.rnd 10)

/-- Modelled from the spec: the digits after the point in the platform's default
float-to-text rendering (the Arduino core's `Print::printFloat`, not under src/): the
remainder is multiplied by `10.0`, its integer part is printed and subtracted, once per
digit, in `double`. -/
def fracDigits (D : Fmt) : ℕ → ℚ → String
  | 0, _ => ""
  | n + 1, remainder =>
    let scaled := D.rnd (remainder * D.rnd 10)
    let toPrint := ⌊scaled⌋.toNat
    toString toPrint ++ fracDigits D n (D.rnd (scaled - D.rnd toPrint))

/-- Modelled from the spec: the platform's default float-to-text rendering behind
`Serial.print(distance)` (the Arduino core's `Print::printFloat(double, digits)`, called with
its default of 2 digits; not under src/).  Magnitudes above 4294967040 print `ovf`; otherwise
the sign, then the number plus the rounding term split into its integer part, a point, and
the fraction digits. -/
def printFloat (D : Fmt) (number : ℚ) (digits : ℕ) : String :=
  if 4294967040 < number then "ovf"
  else if number < -4294967040 then "ovf"
  else
    let sign := if number < 0 then "-" else ""
    let number := if number < 0 then -number else number
    let number := D.rnd (number + roundingTerm D digits)
    let int_part := ⌊number⌋.toNat
    let remainder := D.rnd (number - D.rnd int_part)
    sign ++ toString int_part ++ (if 0 < digits then "." else "") ++
      fracDigits D digits remainder

/-- Modelled from the spec: the characters the serial calls of a trace put on the channel:
`print` of a string writes it, `print` of a `float` converts it to `double` and writes its
default rendering with 2 digits, `println` writes the string and the line terminator `eol`
(the Arduino core's `Print` class, not under src/). -/
def serialText (T : Target) (eol : String) : List Event → String
  | [] => ""
  | .serialPrint s :: es => s ++ serialText T eol es
  | .serialPrintFloat x :: es =>
    printFloat T.double (T.double.rnd x) 2 ++ serialText T eol es
  | .serialPrintln s :: es => s ++ eol ++ serialText T eol es
  | _ :: es => serialText T eol es

/-! ## Rounding to the nearest integer -/

theorem roundNE_spec (q : ℚ) :
    |q - roundNE q| ≤ 1 / 2 ∧ (|q - roundNE q| = 1 / 2 → (roundNE q) % 2 = 0) := by
  have h1 : (⌊q⌋ : ℚ) ≤ q := Int.floor_le q
  have h2 : q < ⌊q⌋ + 1 := Int.lt_floor_add_one q
  unfold roundNE
  simp only
  split_ifs with ha hb hc
  · refine ⟨by rw [abs_le]; constructor <;> linarith, fun h => ?_⟩
    rw [abs_of_nonneg (by linarith)] at h
    linarith
  · push_cast
    refine ⟨by rw [abs_le]; constructor <;> linarith, fun h => ?_⟩
    rw [abs_of_nonpos (by linarith)] at h
    linarith
  · exact ⟨by rw [abs_le]; constructor <;> linarith, fun _ => hc⟩
  · push_cast
    refine ⟨by rw [abs_le]; constructor <;> linarith, fun _ => by omega⟩

theorem roundNE_unique (q : ℚ) (m : ℤ) (h1 : |q - m| ≤ 1 / 2)
    (h2 : |q - m| = 1 / 2 → m % 2 = 0) : roundNE q = m := by
  obtain ⟨s1, s2⟩ := roundNE_spec q
  rw [abs_le] at h1 s1
  have hd : ((roundNE q - m : ℤ) : ℚ) ≤ 1 ∧ (-1 : ℚ) ≤ ((roundNE q - m : ℤ) : ℚ) := by
    push_cast; constructor <;> linarith
  have hd1 : roundNE q - m ≤ 1 := by exact_mod_cast hd.1
  have hd2 : -1 ≤ roundNE q - m := by exact_mod_cast hd.2
  by_contra hne
  rcases (by omega : roundNE q - m = 1 ∨ roundNE q - m = -1) with h | h
  · have hq : ((roundNE q : ℤ) : ℚ) = m + 1 := by
      have : roundNE q = m + 1 := by omega
      rw [this]; push_cast; ring
    have e1 : |q - roundNE q| = 1 / 2 := by
      rw [abs_of_nonpos (by linarith)]; linarith
    have e2 : |q - m| = 1 / 2 := by
      rw [abs_of_nonneg (by linarith)]; linarith
    have := s2 e1
    have := h2 e2
    omega
  · have hq : ((roundNE q : ℤ) : ℚ) = m - 1 := by
      have : roundNE q = m - 1 := by omega
      rw [this]; push_cast; ring
    have e1 : |q - roundNE q| = 1 / 2 := by
      rw [abs_of_nonneg (by linarith)]; linarith
    have e2 : |q - m| = 1 / 2 := by
      rw [abs_of_nonpos (by linarith)]; linarith
    have := s2 e1
    have := h2 e2
    omega

theorem roundNE_intCast (n : ℤ) : roundNE (n : ℚ) = n :=
  roundNE_unique _ n (by simp) (by simp)

theorem roundNE_neg (q : ℚ) : roundNE (-q) = -roundNE q := by
  obtain ⟨s1, s2⟩ := roundNE_spec q
  apply roundNE_unique
  · push_cast
    rw [show -q - -(roundNE q : ℚ) = -(q - roundNE q) by ring, abs_neg]; exact s1
  · push_cast
    rw [show -q - -(roundNE q : ℚ) = -(q - roundNE q) by ring, abs_neg]
    intro h; have := s2 h; omega

theorem roundNE_mono {x y : ℚ} (h : x ≤ y) : roundNE x ≤ roundNE y := by
  by_contra hlt
  push_neg at hlt
  obtain ⟨x1, x2⟩ := roundNE_spec x
  obtain ⟨y1, y2⟩ := roundNE_spec y
  rw [abs_le] at x1 y1
  have hc : ((roundNE y : ℤ) : ℚ) + 1 ≤ roundNE x := by exact_mod_cast hlt
  have hxy : x = y := by linarith
  subst hxy
  exact absurd hlt (lt_irrefl _)

/-! ## Rounding into a binary format -/

theorem two_zpow_log_le {r : ℚ} (hr : 0 < r) : (2 : ℚ) ^ Int.log 2 r ≤ r := by
  have h : ((2 : ℕ) : ℚ) ^ Int.log 2 r ≤ r := Int.zpow_log_le_self (by norm_num) hr
  simpa using h

theorem lt_two_zpow_log (r : ℚ) : r < (2 : ℚ) ^ (Int.log 2 r + 1) := by
  have h : r < ((2 : ℕ) : ℚ) ^ (Int.log 2 r + 1) := Int.lt_zpow_succ_log_self (by norm_num) r
  simpa using h

theorem le_log_of_zpow_le {r : ℚ} {e : ℤ} (hr : 0 < r) (h : (2 : ℚ) ^ e ≤ r) :
    e ≤ Int.log 2 r := by
  have h2 : ((2 : ℕ) : ℚ) ^ e ≤ r := by simpa using h
  exact (Int.zpow_le_iff_le_log (by norm_num) hr).1 h2

theorem log_lt_of_lt_zpow {r : ℚ} {e : ℤ} (hr : 0 < r) (h : r < (2 : ℚ) ^ e) :
    Int.log 2 r < e := by
  have h2 : r < ((2 : ℕ) : ℚ) ^ e := by simpa using h
  exact (Int.lt_zpow_iff_log_lt (by norm_num) hr).1 h2

theorem log_eq_of_bounds {r : ℚ} {e : ℤ} (h1 : (2 : ℚ) ^ e ≤ r) (h2 : r < (2 : ℚ) ^ (e + 1)) :
    Int.log 2 r = e := by
  have hr : 0 < r := lt_of_lt_of_le (by positivity) h1
  have a := le_log_of_zpow_le hr h1
  have b := log_lt_of_lt_zpow hr h2
  omega

theorem Fmt.rnd_eq_gridRnd (F : Fmt) (q : ℚ) :
    F.rnd q = gridRnd (F.expOf q - F.prec + 1) q := rfl

theorem gridRnd_mono (u : ℤ) {x y : ℚ} (h : x ≤ y) : gridRnd u x ≤ gridRnd u y := by
  unfold gridRnd
  have hu : (0 : ℚ) < 2 ^ u := by positivity
  have h1 : x / 2 ^ u ≤ y / 2 ^ u := div_le_div_of_nonneg_right h hu.le
  have h2 : ((roundNE (x / 2 ^ u) : ℤ) : ℚ) ≤ roundNE (y / 2 ^ u) := by
    exact_mod_cast roundNE_mono h1
  exact mul_le_mul_of_nonneg_right h2 hu.le

theorem gridRnd_fix (u k : ℤ) (m : ℤ) (h : u ≤ k) :
    gridRnd u ((m : ℚ) * 2 ^ k) = (m : ℚ) * 2 ^ k := by
  unfold gridRnd
  obtain ⟨n, rfl⟩ : ∃ n : ℕ, k = u + n := ⟨(k - u).toNat, by omega⟩
  have hu : (2 : ℚ) ^ u ≠ 0 := by positivity
  have e1 : (m : ℚ) * 2 ^ (u + (n : ℤ)) / 2 ^ u = ((m * 2 ^ n : ℤ) : ℚ) := by
    rw [zpow_add₀ (by norm_num : (2 : ℚ) ≠ 0), zpow_natCast]
    push_cast
    field_simp
    ring
  rw [e1, roundNE_intCast]
  rw [zpow_add₀ (by norm_num : (2 : ℚ) ≠ 0), zpow_natCast]
  push_cast
  ring

theorem gridRnd_zpow (u k : ℤ) (h : u ≤ k) : gridRnd u (2 ^ k) = 2 ^ k := by
  have := gridRnd_fix u k 1 h
  simpa using this

theorem gridRnd_neg (u : ℤ) (x : ℚ) : gridRnd u (-x) = -gridRnd u x := by
  unfold gridRnd
  rw [neg_div, roundNE_neg]
  push_cast
  ring

theorem Fmt.expOf_neg (F : Fmt) (q : ℚ) : F.expOf (-q) = F.expOf q := by
  unfold Fmt.expOf; rw [abs_neg]

theorem Fmt.rnd_neg (F : Fmt) (q : ℚ) : F.rnd (-q) = -F.rnd q := by
  rw [F.rnd_eq_gridRnd, F.rnd_eq_gridRnd, F.expOf_neg, gridRnd_neg]

theorem Fmt.rnd_zero (F : Fmt) : F.rnd 0 = 0 := by
  simp [Fmt.rnd, roundNE_intCast, roundNE]

theorem gridRnd_nonneg (u : ℤ) {x : ℚ} (h : 0 ≤ x) : 0 ≤ gridRnd u x := by
  have := gridRnd_mono u h
  have h0 : gridRnd u 0 = 0 := by simpa using gridRnd_fix u u 0 le_rfl
  rwa [h0] at this

theorem Fmt.rnd_nonneg (F : Fmt) {q : ℚ} (h : 0 ≤ q) : 0 ≤ F.rnd q := by
  rw [F.rnd_eq_gridRnd]; exact gridRnd_nonneg _ h

theorem Fmt.expOf_mono (F : Fmt) {x y : ℚ} (hx : 0 < x) (h : x ≤ y) :
    F.expOf x ≤ F.expOf y := by
  unfold Fmt.expOf
  rw [abs_of_pos hx, abs_of_pos (lt_of_lt_of_le hx h)]
  exact max_le_max (Int.log_mono_right hx h) le_rfl

theorem Fmt.rnd_mono_pos (F : Fmt) (hp : 0 < F.prec) {x y : ℚ} (hx : 0 < x) (h : x ≤ y) :
    F.rnd x ≤ F.rnd y := by
  have hy : 0 < y := lt_of_lt_of_le hx h
  rw [F.rnd_eq_gridRnd, F.rnd_eq_gridRnd]
  rcases (F.expOf_mono hx h).lt_or_eq with hlt | heq
  · -- the exponents differ: a power of two separates `x` and `y`
    have hey : F.expOf y = Int.log 2 y := by
      unfold Fmt.expOf at hlt ⊢
      rw [abs_of_pos hy] at hlt ⊢
      have : F.emin ≤ max (Int.log 2 |x|) F.emin := le_max_right _ _
      apply max_eq_left
      omega
    have hxlt : x < 2 ^ (F.expOf x + 1) := by
      refine lt_of_lt_of_le (lt_two_zpow_log x) ?_
      apply zpow_le_zpow_right₀ (by norm_num)
      have : Int.log 2 x ≤ F.expOf x := by
        unfold Fmt.expOf; rw [abs_of_pos hx]; exact le_max_left _ _
      omega
    have hyge : (2 : ℚ) ^ F.expOf y ≤ y := by rw [hey]; exact two_zpow_log_le hy
    have hmid : (2 : ℚ) ^ (F.expOf x + 1) ≤ 2 ^ F.expOf y :=
      zpow_le_zpow_right₀ (by norm_num) (by omega)
    calc gridRnd (F.expOf x - F.prec + 1) x
        ≤ gridRnd (F.expOf x - F.prec + 1) (2 ^ (F.expOf x + 1)) := gridRnd_mono _ hxlt.le
      _ = 2 ^ (F.expOf x + 1) := gridRnd_zpow _ _ (by omega)
      _ ≤ 2 ^ F.expOf y := hmid
      _ = gridRnd (F.expOf y - F.prec + 1) (2 ^ F.expOf y) :=
          (gridRnd_zpow _ _ (by omega)).symm
      _ ≤ gridRnd (F.expOf y - F.prec + 1) y := gridRnd_mono _ hyge
  · rw [heq]; exact gridRnd_mono _ h

theorem Fmt.rnd_mono (F : Fmt) (hp : 0 < F.prec) {x y : ℚ} (h : x ≤ y) :
    F.rnd x ≤ F.rnd y := by
  rcases lt_trichotomy 0 x with hx | hx | hx
  · exact F.rnd_mono_pos hp hx h
  · subst hx; rw [F.rnd_zero]; exact F.rnd_nonneg h
  · rcases lt_or_le y 0 with hy | hy
    · have := F.rnd_mono_pos hp (neg_pos.2 hy) (neg_le_neg h)
      rw [F.rnd_neg, F.rnd_neg] at this
      linarith
    · have h1 := F.rnd_nonneg hy
      have h2 := F.rnd_nonneg (neg_nonneg.2 hx.le)
      rw [F.rnd_neg] at h2
      linarith

theorem Fmt.log_le_expOf (F : Fmt) (q : ℚ) : Int.log 2 |q| ≤ F.expOf q := le_max_left _ _

theorem Fmt.emin_le_expOf (F : Fmt) (q : ℚ) : F.emin ≤ F.expOf q := le_max_right _ _

theorem Fmt.rnd_of_rep (F : Fmt) (m k : ℤ) (hm : |m| < 2 ^ F.prec)
    (hk : F.emin - F.prec + 1 ≤ k) : F.rnd ((m : ℚ) * 2 ^ k) = (m : ℚ) * 2 ^ k := by
  rcases eq_or_ne m 0 with rfl | hm0
  · simp [F.rnd_zero]
  · rw [F.rnd_eq_gridRnd]
    apply gridRnd_fix
    have hq : (0 : ℚ) < |(m : ℚ) * 2 ^ k| := by
      apply abs_pos.2
      have : (m : ℚ) ≠ 0 := by exact_mod_cast hm0
      positivity
    have hlt : |(m : ℚ) * 2 ^ k| < 2 ^ ((F.prec : ℤ) + k) := by
      rw [abs_mul, abs_of_pos (by positivity : (0 : ℚ) < 2 ^ k),
        zpow_add₀ (by norm_num : (2 : ℚ) ≠ 0), zpow_natCast]
      apply mul_lt_mul_of_pos_right _ (by positivity)
      have : ((|m| : ℤ) : ℚ) < ((2 ^ F.prec : ℤ) : ℚ) := by exact_mod_cast hm
      simpa using this
    have hlog := log_lt_of_lt_zpow hq hlt
    unfold Fmt.expOf
    rcases max_cases (Int.log 2 |(m : ℚ) * 2 ^ k|) F.emin with ⟨h, _⟩ | ⟨h, _⟩ <;>
      rw [h] <;> omega

theorem Fmt.rnd_eq_self (F : Fmt) {q : ℚ} (h : F.Rep q) : F.rnd q = q := by
  obtain ⟨m, k, hm, hk, rfl⟩ := h
  exact F.rnd_of_rep m k hm hk

theorem Fmt.abs_lt_two_zpow_expOf (F : Fmt) (q : ℚ) : |q| < 2 ^ (F.expOf q + 1) := by
  refine lt_of_lt_of_le (lt_two_zpow_log |q|) ?_
  apply zpow_le_zpow_right₀ (by norm_num)
  have := F.log_le_expOf q
  omega

theorem Fmt.rep_rnd (F : Fmt) (hp : 0 < F.prec) (q : ℚ) : F.Rep (F.rnd q) := by
  have hu : (0 : ℚ) < 2 ^ (F.expOf q - F.prec + 1) := by positivity
  -- the scaled argument lies within `± 2 ^ prec`
  have hb : |q / 2 ^ (F.expOf q - F.prec + 1)| < ((2 ^ F.prec : ℤ) : ℚ) := by
    rw [abs_div, abs_of_pos hu, div_lt_iff₀ hu]
    push_cast
    rw [← zpow_natCast, ← zpow_add₀ (by norm_num : (2 : ℚ) ≠ 0)]
    have := F.abs_lt_two_zpow_expOf q
    rwa [show (F.prec : ℤ) + (F.expOf q - F.prec + 1) = F.expOf q + 1 by ring]
  rw [abs_lt] at hb
  have h1 : roundNE (q / 2 ^ (F.expOf q - F.prec + 1)) ≤ 2 ^ F.prec := by
    have := roundNE_mono hb.2.le
    rwa [roundNE_intCast] at this
  have h2 : -(2 ^ F.prec) ≤ roundNE (q / 2 ^ (F.expOf q - F.prec + 1)) := by
    have := roundNE_mono hb.1.le
    rw [roundNE_neg, roundNE_intCast] at this
    exact this
  have hE := F.emin_le_expOf q
  have hr : F.rnd q = (roundNE (q / 2 ^ (F.expOf q - F.prec + 1)) : ℚ) *
      2 ^ (F.expOf q - F.prec + 1) := rfl
  generalize roundNE (q / 2 ^ (F.expOf q - F.prec + 1)) = M at h1 h2 hr
  have hpow : (2 : ℤ) ^ F.prec = 2 * 2 ^ (F.prec - 1) := by
    rw [← pow_succ']; congr 1; omega
  have hpos : (0 : ℤ) < 2 ^ (F.prec - 1) := by positivity
  have hsplit : (2 : ℚ) ^ (F.expOf q - F.prec + 1 + 1) = 2 * 2 ^ (F.expOf q - F.prec + 1) := by
    rw [zpow_add₀ (by norm_num : (2 : ℚ) ≠ 0)]; ring
  rcases (by omega : (-(2 ^ F.prec) < M ∧ M < 2 ^ F.prec) ∨ M = 2 ^ F.prec ∨
      M = -(2 ^ F.prec)) with h | h | h
  · exact ⟨M, _, abs_lt.2 h, by omega, hr⟩
  · refine ⟨2 ^ (F.prec - 1), F.expOf q - F.prec + 1 + 1, ?_, by omega, ?_⟩
    · rw [abs_of_pos hpos]; omega
    · rw [hr, h, hsplit, hpow]; push_cast; ring
  · refine ⟨-(2 ^ (F.prec - 1)), F.expOf q - F.prec + 1 + 1, ?_, by omega, ?_⟩
    · rw [abs_neg, abs_of_pos hpos]; omega
    · rw [hr, h, hsplit, hpow]; push_cast; ring

theorem Fmt.rnd_rnd (F : Fmt) (hp : 0 < F.prec) (q : ℚ) : F.rnd (F.rnd q) = F.rnd q :=
  F.rnd_eq_self (F.rep_rnd hp q)

theorem Fmt.expOf_two_mul (F : Fmt) {x : ℚ} (hx : x ≠ 0) (h : F.emin ≤ Int.log 2 |x|) :
    F.expOf (2 * x) = F.expOf x + 1 := by
  have hpos : 0 < |x| := abs_pos.2 hx
  have h1 := two_zpow_log_le hpos
  have h2 := lt_two_zpow_log |x|
  have hl : Int.log 2 |2 * x| = Int.log 2 |x| + 1 := by
    apply log_eq_of_bounds
    · rw [abs_mul, abs_of_pos (by norm_num : (0 : ℚ) < 2),
        zpow_add₀ (by norm_num : (2 : ℚ) ≠ 0)]
      simp only [zpow_one]; linarith
    · rw [abs_mul, abs_of_pos (by norm_num : (0 : ℚ) < 2),
        zpow_add₀ (by norm_num : (2 : ℚ) ≠ 0) (Int.log 2 |x| + 1) 1]
      simp only [zpow_one]; linarith
  unfold Fmt.expOf
  rw [hl, max_eq_left h, max_eq_left (by omega)]

theorem Fmt.rnd_two_mul (F : Fmt) {x : ℚ} (h : (2 : ℚ) ^ F.emin ≤ |x|) :
    F.rnd (2 * x) = 2 * F.rnd x := by
  have hpos : 0 < |x| := lt_of_lt_of_le (by positivity) h
  have hx : x ≠ 0 := abs_pos.1 hpos
  have hl := le_log_of_zpow_le hpos h
  unfold Fmt.rnd Fmt.ulp
  rw [F.expOf_two_mul hx hl]
  have hs : (2 : ℚ) ^ (F.expOf x + 1 - F.prec + 1) = 2 * 2 ^ (F.expOf x - F.prec + 1) := by
    rw [show F.expOf x + 1 - (F.prec : ℤ) + 1 = (F.expOf x - F.prec + 1) + 1 by ring,
      zpow_add₀ (by norm_num : (2 : ℚ) ≠ 0)]
    ring
  rw [hs, mul_div_mul_left _ _ (by norm_num : (2 : ℚ) ≠ 0)]
  ring

/-! ## The distance computation of line 71 -/

theorem Target.prec_ge (T : Target) : 24 ≤ T.double.prec := by
  cases T <;> decide

theorem Target.prec_pos (T : Target) : 0 < T.double.prec :=
  lt_of_lt_of_le (by decide) T.prec_ge

theorem Target.emin_le (T : Target) : T.double.emin ≤ -126 := by
  cases T <;> decide

/-- Every binary32 value is a `double` value on both targets, hence unchanged by rounding. -/
theorem Target.rnd_fix (T : Target) (m k : ℤ) (hm : |m| < 2 ^ 24) (hk : -149 ≤ k) :
    T.double.rnd ((m : ℚ) * 2 ^ k) = (m : ℚ) * 2 ^ k := by
  apply Fmt.rnd_of_rep
  · exact lt_of_lt_of_le hm (pow_le_pow_right₀ (by norm_num) T.prec_ge)
  · have h1 := T.prec_ge
    have h2 := T.emin_le
    omega

theorem Target.rnd_fix_of (T : Target) (q : ℚ) (m k : ℤ) (hq : q = (m : ℚ) * 2 ^ k)
    (hm : |m| < 2 ^ 24) (hk : -149 ≤ k) : T.double.rnd q = q := by
  rw [hq]; exact T.rnd_fix m k hm hk

theorem binary32_rnd_fix_of (q : ℚ) (m k : ℤ) (hq : q = (m : ℚ) * 2 ^ k)
    (hm : |m| < 2 ^ 24) (hk : -149 ≤ k) : binary32.rnd q = q :=
  Target.rnd_fix_of .avr q m k hq hm hk

theorem Target.rnd_two (T : Target) : T.double.rnd 2 = 2 :=
  T.rnd_fix_of 2 2 0 (by norm_num) (by norm_num) (by norm_num)

theorem Target.rnd_intCast (T : Target) (n : ℤ) (hn : |n| < 2 ^ 24) :
    T.double.rnd (n : ℚ) = n :=
  T.rnd_fix_of n n 0 (by simp) hn (by norm_num)

theorem Target.factor_le (T : Target) : factor T.double ≤ 281 / 16384 := by
  unfold factor
  rw [T.rnd_two]
  have h1 : T.double.rnd (343 / 10000) ≤ 281 / 8192 := by
    have := T.double.rnd_mono T.prec_pos (by norm_num : (343 / 10000 : ℚ) ≤ 281 / 8192)
    rwa [T.rnd_fix_of (281 / 8192) 281 (-13) (by norm_num) (by norm_num) (by norm_num)] at this
  have h2 := T.double.rnd_mono T.prec_pos
    (by linarith : T.double.rnd (343 / 10000) / 2 ≤ 281 / 16384)
  rwa [T.rnd_fix_of (281 / 16384) 281 (-14) (by norm_num) (by norm_num) (by norm_num)] at h2

theorem Target.le_rnd_lit (T : Target) : 17983 / 524288 ≤ T.double.rnd (343 / 10000) := by
  have := T.double.rnd_mono T.prec_pos (by norm_num : (17983 / 524288 : ℚ) ≤ 343 / 10000)
  rwa [T.rnd_fix_of (17983 / 524288) 17983 (-19) (by norm_num) (by norm_num)
    (by norm_num)] at this

theorem Target.le_factor (T : Target) : 17983 / 1048576 ≤ factor T.double := by
  unfold factor
  rw [T.rnd_two]
  have h1 := T.le_rnd_lit
  have h2 := T.double.rnd_mono T.prec_pos
    (by linarith : (17983 / 1048576 : ℚ) ≤ T.double.rnd (343 / 10000) / 2)
  rwa [T.rnd_fix_of (17983 / 1048576) 17983 (-20) (by norm_num) (by norm_num)
    (by norm_num)] at h2

/-- Durations up to 874 give a distance below 15. -/
theorem distance_le_of_le (T : Target) (d : ℤ) (h : d ≤ 874) : distance T d ≤ 1919 / 128 := by
  unfold distance
  have hc : T.double.rnd (d : ℚ) ≤ 874 := by
    have := T.double.rnd_mono T.prec_pos (by exact_mod_cast h : (d : ℚ) ≤ (874 : ℤ))
    rwa [T.rnd_intCast 874 (by norm_num)] at this
  have hf1 := T.factor_le
  have hf0 : 0 ≤ factor T.double := le_trans (by norm_num) T.le_factor
  have hprod : T.double.rnd (d : ℚ) * factor T.double ≤ 1919 / 128 := by
    rcases le_total (T.double.rnd (d : ℚ)) 0 with h0 | h0
    · have := mul_nonpos_of_nonpos_of_nonneg h0 hf0
      linarith
    · have := mul_le_mul hc hf1 hf0 (by norm_num : (0 : ℚ) ≤ 874)
      linarith
  have h1 := T.double.rnd_mono T.prec_pos hprod
  rw [T.rnd_fix_of (1919 / 128) 1919 (-7) (by norm_num) (by norm_num) (by norm_num)] at h1
  have h2 := binary32.rnd_mono (by decide) h1
  rwa [binary32_rnd_fix_of (1919 / 128) 1919 (-7) (by norm_num) (by norm_num)
    (by norm_num)] at h2

/-- Durations from 875 on give a distance above 15. -/
theorem distance_ge_of_ge (T : Target) (d : ℤ) (h : 875 ≤ d) : 3841 / 256 ≤ distance T d := by
  unfold distance
  have hc : 875 ≤ T.double.rnd (d : ℚ) := by
    have := T.double.rnd_mono T.prec_pos (by exact_mod_cast h : ((875 : ℤ) : ℚ) ≤ (d : ℚ))
    rwa [T.rnd_intCast 875 (by norm_num)] at this
  have hf1 := T.le_factor
  have hprod : 3841 / 256 ≤ T.double.rnd (d : ℚ) * factor T.double := by
    have := mul_le_mul hc hf1 (by norm_num) (by linarith : (0 : ℚ) ≤ T.double.rnd (d : ℚ))
    linarith
  have h1 := T.double.rnd_mono T.prec_pos hprod
  rw [T.rnd_fix_of (3841 / 256) 3841 (-8) (by norm_num) (by norm_num) (by norm_num)] at h1
  have h2 := binary32.rnd_mono (by decide) h1
  rwa [binary32_rnd_fix_of (3841 / 256) 3841 (-8) (by norm_num) (by norm_num)
    (by norm_num)] at h2

/-- Evaluation of `Fmt.rnd` at a positive argument from its binade and nearest significand. -/
theorem Fmt.rnd_eval (F : Fmt) (q : ℚ) (e m u : ℤ) (hu : u = e - F.prec + 1)
    (he : F.emin ≤ e) (h1 : (2 : ℚ) ^ e ≤ q) (h2 : q < 2 ^ (e + 1))
    (hm1 : (m : ℚ) - 1 / 2 < q / 2 ^ u) (hm2 : q / 2 ^ u < (m : ℚ) + 1 / 2) :
    F.rnd q = (m : ℚ) * 2 ^ u := by
  have hq : 0 < q := lt_of_lt_of_le (by positivity) h1
  have hE : F.expOf q = e := by
    unfold Fmt.expOf
    rw [abs_of_pos hq, log_eq_of_bounds h1 h2, max_eq_left he]
  unfold Fmt.rnd Fmt.ulp
  rw [hE, ← hu]
  congr 2
  apply roundNE_unique
  · rw [abs_le]; constructor <;> linarith
  · intro h
    rcases abs_cases (q / 2 ^ u - (m : ℚ)) with ⟨h3, _⟩ | ⟨h3, _⟩ <;> rw [h3] at h <;> linarith

theorem rnd32_lit : binary32.rnd (343 / 10000) = 1150917 / 33554432 := by
  rw [binary32.rnd_eval (343 / 10000) (-5) 9207336 (-28) (by decide) (by decide)
    (by norm_num) (by norm_num) (by norm_num) (by norm_num)]
  norm_num

theorem rnd64_lit : binary64.rnd (343 / 10000) = 19309183402351 / 562949953421312 := by
  rw [binary64.rnd_eval (343 / 10000) (-5) 4943150951001856 (-57) (by decide) (by decide)
    (by norm_num) (by norm_num) (by norm_num) (by norm_num)]
  norm_num

theorem factor_avr : factor Target.avr.double = 1150917 / 67108864 := by
  unfold factor
  rw [Target.rnd_two]
  show binary32.rnd (binary32.rnd (343 / 10000) / 2) = 1150917 / 67108864
  rw [rnd32_lit, show (1150917 / 33554432 / 2 : ℚ) = 1150917 / 67108864 by norm_num]
  exact binary32_rnd_fix_of _ 1150917 (-26) (by norm_num) (by norm_num) (by norm_num)

theorem factor_wide : factor Target.wide.double = 19309183402351 / 1125899906842624 := by
  unfold factor
  rw [Target.rnd_two]
  show binary64.rnd (binary64.rnd (343 / 10000) / 2) = 19309183402351 / 1125899906842624
  rw [rnd64_lit]
  have h := binary64.rnd_of_rep 19309183402351 (-50) (by norm_num [binary64])
    (by norm_num [binary64])
  norm_num at h ⊢
  exact h

theorem rnd32_1029 : binary32.rnd (1029 / 100) = 10789847 / 1048576 := by
  rw [binary32.rnd_eval (1029 / 100) 3 10789847 (-20) (by decide) (by decide)
    (by norm_num) (by norm_num) (by norm_num) (by norm_num)]
  norm_num

theorem rnd32_343 : binary32.rnd (343 / 10) = 8991539 / 262144 := by
  rw [binary32.rnd_eval (343 / 10) 5 8991539 (-18) (by decide) (by decide)
    (by norm_num) (by norm_num) (by norm_num) (by norm_num)]
  norm_num

/-- Duration 600 gives the `float` nearest to 10.29 on both targets. -/
theorem distance_600 (T : Target) : distance T 600 = 10789847 / 1048576 := by
  unfold distance
  have hc : T.double.rnd ((600 : ℤ) : ℚ) = 600 := by
    rw [T.rnd_intCast 600 (by norm_num)]; norm_num
  rw [hc]
  cases T
  · rw [factor_avr]
    show binary32.rnd (binary32.rnd (600 * (1150917 / 67108864))) = 10789847 / 1048576
    rw [binary32.rnd_eval (600 * (1150917 / 67108864)) 3 10789847 (-20) (by decide) (by decide)
      (by norm_num) (by norm_num) (by norm_num) (by norm_num)]
    rw [binary32_rnd_fix_of _ 10789847 (-20) rfl (by norm_num) (by norm_num)]
    norm_num
  · rw [factor_wide]
    show binary32.rnd (binary64.rnd (600 * (19309183402351 / 1125899906842624))) =
      10789847 / 1048576
    have h := binary64.rnd_of_rep 1448188755176325 (-47) (by norm_num [binary64])
      (by norm_num [binary64])
    have e : (600 * (19309183402351 / 1125899906842624) : ℚ) =
        ((1448188755176325 : ℤ) : ℚ) * 2 ^ (-47 : ℤ) := by norm_num
    rw [e, h]
    rw [binary32.rnd_eval _ 3 10789847 (-20) (by decide) (by decide)
      (by norm_num) (by norm_num) (by norm_num) (by norm_num)]
    norm_num

/-- Duration 2000 gives the `float` nearest to 34.3 on both targets. -/
theorem distance_2000 (T : Target) : distance T 2000 = 8991539 / 262144 := by
  unfold distance
  have hc : T.double.rnd ((2000 : ℤ) : ℚ) = 2000 := by
    rw [T.rnd_intCast 2000 (by norm_num)]; norm_num
  rw [hc]
  cases T
  · rw [factor_avr]
    show binary32.rnd (binary32.rnd (2000 * (1150917 / 67108864))) = 8991539 / 262144
    rw [binary32.rnd_eval (2000 * (1150917 / 67108864)) 5 8991539 (-18) (by decide)
      (by decide) (by norm_num) (by norm_num) (by norm_num) (by norm_num)]
    rw [binary32_rnd_fix_of _ 8991539 (-18) rfl (by norm_num) (by norm_num)]
    norm_num
  · rw [factor_wide]
    show binary32.rnd (binary64.rnd (2000 * (19309183402351 / 1125899906842624))) =
      8991539 / 262144
    have h := binary64.rnd_of_rep 2413647925293875 (-46) (by norm_num [binary64])
      (by norm_num [binary64])
    have e : (2000 * (19309183402351 / 1125899906842624) : ℚ) =
        ((2413647925293875 : ℤ) : ℚ) * 2 ^ (-46 : ℤ) := by norm_num
    rw [e, h]
    rw [binary32.rnd_eval _ 5 8991539 (-18) (by decide) (by decide)
      (by norm_num) (by norm_num) (by norm_num) (by norm_num)]
    norm_num

/-! ## The three readings of the conversion factor -/

theorem Target.two_zpow_emin_le (T : Target) : (2 : ℚ) ^ T.double.emin ≤ 1 / 1048576 := by
  have h : (2 : ℚ) ^ T.double.emin ≤ 2 ^ (-126 : ℤ) :=
    zpow_le_zpow_right₀ (by norm_num) T.emin_le
  refine le_trans h ?_
  norm_num

/-- Halving commutes with rounding away from the subnormal range. -/
theorem Fmt.rnd_half (F : Fmt) {x : ℚ} (h : (2 : ℚ) ^ F.emin ≤ |x / 2|) :
    F.rnd (x / 2) = F.rnd x / 2 := by
  have := F.rnd_two_mul h
  rw [show 2 * (x / 2) = x by ring] at this
  rw [this]; ring

theorem Target.factor_eq_half (T : Target) :
    factor T.double = T.double.rnd (343 / 10000) / 2 := by
  unfold factor
  rw [T.rnd_two]
  have h1 := T.le_rnd_lit
  have h2 := T.two_zpow_emin_le
  rw [T.double.rnd_half, T.double.rnd_rnd T.prec_pos]
  rw [abs_of_pos (by linarith)]
  linarith

theorem Target.factor_eq_spec (T : Target) :
    factor T.double = T.double.rnd (1715 / 100000) := by
  rw [T.factor_eq_half, show (1715 / 100000 : ℚ) = 343 / 10000 / 2 by norm_num]
  have h2 := T.two_zpow_emin_le
  rw [T.double.rnd_half]
  rw [abs_of_pos (by norm_num)]
  refine le_trans h2 ?_
  norm_num

/-- A non-zero `long` converts to a `double` of magnitude at least one. -/
theorem Target.one_le_abs_conv (T : Target) (d : ℤ) (hd : d ≠ 0) :
    1 ≤ |T.double.rnd (d : ℚ)| := by
  have h1 : T.double.rnd ((1 : ℤ) : ℚ) = (1 : ℤ) := T.rnd_intCast 1 (by norm_num)
  have hm1 : T.double.rnd ((-1 : ℤ) : ℚ) = (-1 : ℤ) := T.rnd_intCast (-1) (by norm_num)
  rcases (by omega : 1 ≤ d ∨ d ≤ -1) with h | h
  · have := T.double.rnd_mono T.prec_pos (by exact_mod_cast h : ((1 : ℤ) : ℚ) ≤ (d : ℚ))
    rw [h1] at this
    push_cast at this
    exact le_trans this (le_abs_self _)
  · have := T.double.rnd_mono T.prec_pos (by exact_mod_cast h : (d : ℚ) ≤ ((-1 : ℤ) : ℚ))
    rw [hm1] at this
    push_cast at this
    have h3 := neg_le_abs (T.double.rnd (d : ℚ))
    linarith

theorem distance_eq_distanceSpec (T : Target) (d : ℤ) : distance T d = distanceSpec T d := by
  unfold distance distanceSpec
  rw [T.factor_eq_spec]

theorem distance_eq_distanceDoc (T : Target) (d : ℤ) : distance T d = distanceDoc T d := by
  unfold distance distanceDoc
  rw [T.rnd_two, T.factor_eq_half]
  congr 1
  rcases eq_or_ne d 0 with rfl | hd
  · simp [Fmt.rnd_zero]
  · have hc := T.one_le_abs_conv d hd
    have hl := T.le_rnd_lit
    have h2 := T.two_zpow_emin_le
    have hx : (2 : ℚ) ^ T.double.emin ≤
        |T.double.rnd (d : ℚ) * T.double.rnd (343 / 10000) / 2| := by
      rw [abs_div, abs_mul, abs_of_pos (by norm_num : (0 : ℚ) < 2),
        abs_of_pos (by linarith : (0 : ℚ) < T.double.rnd (343 / 10000))]
      have : 1 * (17983 / 524288 : ℚ) ≤ |T.double.rnd (d : ℚ)| * T.double.rnd (343 / 10000) :=
        mul_le_mul hc hl (by norm_num) (abs_nonneg _)
      linarith
    rw [← T.double.rnd_half hx, T.double.rnd_rnd T.prec_pos]
    congr 1
    ring

/-! ## Distance of the computed value from the exact product -/

/-- Relative error of one rounding away from the subnormal range. -/
theorem Fmt.abs_rnd_sub_le (F : Fmt) {x : ℚ} (h : (2 : ℚ) ^ F.emin ≤ |x|) :
    |F.rnd x - x| ≤ |x| / 2 ^ F.prec := by
  have hpos : 0 < |x| := lt_of_lt_of_le (by positivity) h
  have hl := le_log_of_zpow_le hpos h
  have hE : F.expOf x = Int.log 2 |x| := max_eq_left hl
  have hlow : (2 : ℚ) ^ F.expOf x ≤ |x| := by rw [hE]; exact two_zpow_log_le hpos
  have hu : (0 : ℚ) < 2 ^ (F.expOf x - F.prec + 1) := by positivity
  obtain ⟨s1, _⟩ := roundNE_spec (x / 2 ^ (F.expOf x - F.prec + 1))
  have hr : F.rnd x - x = -(x / 2 ^ (F.expOf x - F.prec + 1) -
      roundNE (x / 2 ^ (F.expOf x - F.prec + 1))) * 2 ^ (F.expOf x - F.prec + 1) := by
    unfold Fmt.rnd Fmt.ulp
    field_simp
    ring
  rw [hr, abs_mul, abs_neg, abs_of_pos hu]
  have hsplit : (2 : ℚ) ^ (F.expOf x - F.prec + 1) = 2 ^ F.expOf x / 2 ^ F.prec * 2 := by
    rw [show F.expOf x - (F.prec : ℤ) + 1 = F.expOf x + 1 - F.prec by ring,
      zpow_sub₀ (by norm_num : (2 : ℚ) ≠ 0), zpow_add₀ (by norm_num : (2 : ℚ) ≠ 0),
      zpow_natCast]
    simp only [zpow_one]; ring
  have hP : (0 : ℚ) < 2 ^ F.prec := by positivity
  calc |x / 2 ^ (F.expOf x - F.prec + 1) -
        roundNE (x / 2 ^ (F.expOf x - F.prec + 1))| * 2 ^ (F.expOf x - F.prec + 1)
      ≤ 1 / 2 * 2 ^ (F.expOf x - F.prec + 1) := mul_le_mul_of_nonneg_right s1 hu.le
    _ = 2 ^ F.expOf x / 2 ^ F.prec := by rw [hsplit]; ring
    _ ≤ |x| / 2 ^ F.prec := div_le_div_of_nonneg_right hlow hP.le

theorem Target.rnd_rel_error (T : Target) (x : ℚ) (h : 1 / 1048576 ≤ |x|) :
    |T.double.rnd x - x| ≤ |x| / 16777216 := by
  have h1 := T.double.abs_rnd_sub_le (le_trans T.two_zpow_emin_le h)
  refine le_trans h1 ?_
  have hp : (16777216 : ℚ) ≤ 2 ^ T.double.prec := by
    have : (2 : ℚ) ^ 24 ≤ 2 ^ T.double.prec := pow_le_pow_right₀ (by norm_num) T.prec_ge
    norm_num at this
    exact this
  exact div_le_div_of_nonneg_left (abs_nonneg x) (by norm_num) hp

theorem binary32_rnd_rel_error (x : ℚ) (h : 1 / 1048576 ≤ |x|) :
    |binary32.rnd x - x| ≤ |x| / 16777216 :=
  Target.rnd_rel_error .avr x h

/-- The computed distance is within a relative `2 ^ (-21)` of the exact `duration * 0.01715`. -/
theorem distance_close (T : Target) (d : ℤ) :
    |distance T d - (d : ℚ) * (1715 / 100000)| ≤ |(d : ℚ)| * (1715 / 100000) / 2097152 := by
  rcases eq_or_ne d 0 with rfl | hd
  · simp [distance, Fmt.rnd_zero]
  · have hA : (1 : ℚ) ≤ |(d : ℚ)| := by
      have : (1 : ℤ) ≤ |d| := Int.one_le_abs hd
      exact_mod_cast this
    have hca1 := T.one_le_abs_conv d hd
    unfold distance
    rw [T.factor_eq_spec]
    -- conversion of `duration` and rounding of the constant
    have e1 := T.rnd_rel_error (d : ℚ) (by linarith)
    have e2 := T.rnd_rel_error (1715 / 100000 : ℚ) (by rw [abs_of_pos] <;> norm_num)
    rw [abs_of_pos (by norm_num : (0 : ℚ) < 1715 / 100000)] at e2
    generalize T.double.rnd (d : ℚ) = ca at e1 hca1 ⊢
    generalize T.double.rnd (1715 / 100000) = c at e2 ⊢
    generalize hAdef : |(d : ℚ)| = A at hA e1 ⊢
    have hA0 : 0 ≤ A := by linarith
    have hc := abs_le.1 e2
    have hcpos : 0 < c := by linarith [hc.1]
    have hcabs : |c| = c := abs_of_pos hcpos
    have hca : |ca| ≤ A * (1 + 1 / 16777216) := by
      have := abs_add (ca - (d : ℚ)) (d : ℚ)
      rw [sub_add_cancel, hAdef] at this
      linarith
    -- the exact product of the rounded operands
    have h5 : |ca * c - (d : ℚ) * (1715 / 100000)| ≤ A * (1715 / 100000) * (3 / 16777216) := by
      have t := abs_add ((ca - (d : ℚ)) * c) ((d : ℚ) * (c - 1715 / 100000))
      rw [show (ca - (d : ℚ)) * c + (d : ℚ) * (c - 1715 / 100000) =
        ca * c - (d : ℚ) * (1715 / 100000) by ring, abs_mul, abs_mul, hcabs, hAdef] at t
      have t1 : |ca - (d : ℚ)| * c ≤ A / 16777216 * (1715 / 100000 * (1 + 1 / 16777216)) :=
        mul_le_mul e1 (by linarith [hc.2]) hcpos.le (by positivity)
      have t2 : A * |c - 1715 / 100000| ≤ A * (1715 / 100000 / 16777216) :=
        mul_le_mul_of_nonneg_left e2 hA0
      nlinarith
    have h6 : |ca * c| ≤ A * (1715 / 100000) * (1 + 3 / 16777216) := by
      rw [abs_mul, hcabs]
      have : |ca| * c ≤ A * (1 + 1 / 16777216) * (1715 / 100000 * (1 + 1 / 16777216)) :=
        mul_le_mul hca (by linarith [hc.2]) hcpos.le (by positivity)
      nlinarith
    have h6lo : 1 / 1048576 ≤ |ca * c| := by
      rw [abs_mul, hcabs]
      have : 1 * (1 / 1048576 : ℚ) ≤ |ca| * c :=
        mul_le_mul hca1 (by linarith [hc.1]) (by norm_num) (abs_nonneg _)
      linarith
    have h6lo2 : 1 / 64 ≤ |ca * c| := by
      rw [abs_mul, hcabs]
      have : 1 * (1 / 64 : ℚ) ≤ |ca| * c :=
        mul_le_mul hca1 (by linarith [hc.1]) (by norm_num) (abs_nonneg _)
      linarith
    -- the product rounded to `double`
    have e3 := T.rnd_rel_error (ca * c) h6lo
    generalize T.double.rnd (ca * c) = p at e3 ⊢
    have h8 : |p| ≤ A * (1715 / 100000) * (1 + 5 / 16777216) := by
      have := abs_add (p - ca * c) (ca * c)
      rw [sub_add_cancel] at this
      nlinarith
    have h8lo : 1 / 1048576 ≤ |p| := by
      have := abs_sub_abs_le_abs_sub (ca * c) p
      rw [abs_sub_comm] at this
      linarith
    -- the conversion to `float`
    have e4 := binary32_rnd_rel_error p h8lo
    generalize binary32.rnd p = r at e4 ⊢
    have t := abs_add (r - p) (p - (d : ℚ) * (1715 / 100000))
    have t2 := abs_add (p - ca * c) (ca * c - (d : ℚ) * (1715 / 100000))
    rw [show r - p + (p - (d : ℚ) * (1715 / 100000)) = r - (d : ℚ) * (1715 / 100000) by ring]
      at t
    rw [show p - ca * c + (ca * c - (d : ℚ) * (1715 / 100000)) =
      p - (d : ℚ) * (1715 / 100000) by ring] at t2
    nlinarith

/-! ## Range of the computed values -/

/-- For every value of a 32- or 64-bit `long` the converted duration, the `double` product and
the `float` distance stay below `2 ^ 63`, far inside the finite range of binary32 and
binary64, so no operation of line 71 overflows. -/
theorem distance_in_range (T : Target) (d : ℤ) (h : |d| ≤ 2 ^ 63) :
    |T.double.rnd (d : ℚ)| ≤ 2 ^ 63 ∧
    |T.double.rnd (T.double.rnd (d : ℚ) * factor T.double)| ≤ 2 ^ 63 ∧
    |distance T d| ≤ 2 ^ 63 := by
  have hfix : T.double.rnd (2 ^ 63) = 2 ^ 63 :=
    T.rnd_fix_of (2 ^ 63) 1 63 (by norm_num) (by norm_num) (by norm_num)
  have hfix32 : binary32.rnd (2 ^ 63) = 2 ^ 63 :=
    binary32_rnd_fix_of (2 ^ 63) 1 63 (by norm_num) (by norm_num) (by norm_num)
  have bound : ∀ x : ℚ, |x| ≤ 2 ^ 63 → |T.double.rnd x| ≤ 2 ^ 63 := by
    intro x hx
    obtain ⟨h1, h2⟩ := abs_le.1 hx
    have a := T.double.rnd_mono T.prec_pos h2
    have b := T.double.rnd_mono T.prec_pos h1
    rw [T.double.rnd_neg] at b
    rw [hfix] at a b
    exact abs_le.2 ⟨b, a⟩
  have bound32 : ∀ x : ℚ, |x| ≤ 2 ^ 63 → |binary32.rnd x| ≤ 2 ^ 63 := by
    intro x hx
    obtain ⟨h1, h2⟩ := abs_le.1 hx
    have a := binary32.rnd_mono (by decide) h2
    have b := binary32.rnd_mono (by decide) h1
    rw [binary32.rnd_neg] at b
    rw [hfix32] at a b
    exact abs_le.2 ⟨b, a⟩
  have hd : |(d : ℚ)| ≤ 2 ^ 63 := by exact_mod_cast h
  have h1 := bound _ hd
  have hf0 : 0 ≤ factor T.double := le_trans (by norm_num) T.le_factor
  have hprod : |T.double.rnd (d : ℚ) * factor T.double| ≤ 2 ^ 63 := by
    rw [abs_mul, abs_of_nonneg hf0]
    have := mul_le_mul h1 T.factor_le hf0 (by positivity)
    linarith
  have h2 := bound _ hprod
  exact ⟨h1, h2, bound32 _ h2⟩

/-! ## The control loop -/

theorem servoStep_of_le {x : ℚ} (h : x ≤ 15) : servoStep x = [.servoWrite 180] := by
  simp [servoStep, h]

theorem servoStep_of_lt {x : ℚ} (h : 15 < x) : servoStep x = [.servoWrite 0] := by
  simp [servoStep, not_le.2 h]

theorem servoStep_cases (x : ℚ) :
    servoStep x = [.servoWrite 180] ∨ servoStep x = [.servoWrite 0] := by
  rcases le_or_lt x 15 with h | h
  · exact Or.inl (servoStep_of_le h)
  · exact Or.inr (servoStep_of_lt h)

theorem servoWrites_append (xs ys : List Event) :
    servoWrites (xs ++ ys) = servoWrites xs ++ servoWrites ys := by
  induction xs with
  | nil => rfl
  | cons e es ih => cases e <;> simp [servoWrites, ih]

theorem delayedMicros_append (xs ys : List Event) :
    delayedMicros (xs ++ ys) = delayedMicros xs + delayedMicros ys := by
  induction xs with
  | nil => simp [delayedMicros]
  | cons e es ih => cases e <;> simp [delayedMicros, ih, Nat.add_assoc]

theorem servoWrites_loop (T : Target) (d : ℤ) :
    servoWrites (loop T d) = servoWrites (servoStep (distance T d)) := by
  simp [loop, servoWrites_append, servoWrites]

theorem servoWrites_loop_of_le (T : Target) (d : ℤ) (h : d ≤ 874) :
    servoWrites (loop T d) = [180] := by
  have h1 := distance_le_of_le T d h
  rw [servoWrites_loop, servoStep_of_le (by linarith)]
  rfl

theorem servoWrites_loop_of_ge (T : Target) (d : ℤ) (h : 875 ≤ d) :
    servoWrites (loop T d) = [0] := by
  have h1 := distance_ge_of_ge T d h
  rw [servoWrites_loop, servoStep_of_lt (by linarith)]
  rfl

theorem exact_le_iff (d : ℤ) : (d : ℚ) * (1715 / 100000) ≤ 15 ↔ d ≤ 874 := by
  constructor
  · intro h
    by_contra hn
    have h2 : ((875 : ℤ) : ℚ) ≤ (d : ℚ) := by exact_mod_cast (by omega : 875 ≤ d)
    push_cast at h2
    linarith
  · intro h
    have h2 : (d : ℚ) ≤ ((874 : ℤ) : ℚ) := by exact_mod_cast h
    push_cast at h2
    linarith

theorem delayedMicros_loop (T : Target) (d : ℤ) : delayedMicros (loop T d) = 100012 := by
  rcases servoStep_cases (distance T d) with h | h <;> simp [loop, h, delayedMicros]

theorem beforeMeasure_loop (T : Target) (d : ℤ) :
    beforeMeasure (loop T d) =
      [.digitalWrite trg_pin .HIGH, .delayMicroseconds 2, .digitalWrite trg_pin .LOW,
       .delayMicroseconds 10, .digitalWrite trg_pin .HIGH] := by
  simp [loop, beforeMeasure]

theorem afterMeasure_loop (T : Target) (d : ℤ) :
    afterMeasure (loop T d) =
      servoStep (distance T d) ++
        [.serialPrint "Distance", .serialPrintFloat (distance T d), .serialPrintln "CM",
         .delay 100] := by
  simp [loop, afterMeasure]

theorem servoWrites_cycles (T : Target) (ds : List ℤ) :
    (∀ a ∈ servoWrites (cycles T ds), a = 0 ∨ a = 180) ∧
      (servoWrites (cycles T ds)).length = ds.length := by
  induction ds with
  | nil => simp [cycles, servoWrites]
  | cons d ds ih =>
    rw [cycles, servoWrites_append, servoWrites_loop]
    rcases servoStep_cases (distance T d) with h | h <;> rw [h] <;>
      simp [servoWrites, ih.2] <;> exact ih.1

theorem cycles_append (T : Target) (xs ys : List ℤ) :
    cycles T (xs ++ ys) = cycles T xs ++ cycles T ys := by
  induction xs with
  | nil => rfl
  | cons d ds ih => simp [cycles, ih]

theorem startOf_succ (T : Target) (ds : List ℤ) (n : ℕ) (h : n < ds.length) :
    startOf T ds (n + 1) = startOf T ds n + 100012 := by
  unfold startOf
  rw [List.take_succ, cycles_append, delayedMicros_append]
  rw [List.getElem?_eq_getElem h]
  simp [cycles, delayedMicros_loop]

/-! ## Telemetry text -/

theorem floor_toNat_eq (q : ℚ) (n : ℕ) (h1 : (n : ℚ) ≤ q) (h2 : q < (n : ℚ) + 1) :
    ⌊q⌋.toNat = n := by
  have : ⌊q⌋ = (n : ℤ) := by
    rw [Int.floor_eq_iff]
    push_cast
    exact ⟨h1, h2⟩
  rw [this]
  rfl

theorem fracDigits_step (D : Fmt) (n : ℕ) (r scaled r2 : ℚ) (t : ℕ)
    (h1 : D.rnd (r * D.rnd 10) = scaled) (h2 : ⌊scaled⌋.toNat = t)
    (h3 : D.rnd (scaled - D.rnd (t : ℚ)) = r2) :
    fracDigits D (n + 1) r = toString t ++ fracDigits D n r2 := by
  subst h1 h2 h3
  rfl

theorem printFloat_two (D : Fmt) (x y r : ℚ) (ip : ℕ)
    (hx0 : 0 ≤ x) (hx1 : x ≤ 4294967040)
    (hy : D.rnd (x + roundingTerm D 2) = y)
    (hip : ⌊y⌋.toNat = ip) (hr : D.rnd (y - D.rnd (ip : ℚ)) = r) :
    printFloat D x 2 = "" ++ toString ip ++ "." ++ fracDigits D 2 r := by
  subst hy hip hr
  unfold printFloat
  rw [if_neg (not_lt.2 hx1), if_neg (not_lt.2 (le_trans (by norm_num) hx0))]
  simp only [if_neg (not_lt.2 hx0)]
  rfl

theorem rnd64_nat (n : ℕ) (h : n < 2 ^ 24) : binary64.rnd (n : ℚ) = n := by
  have h2 : |(n : ℤ)| < 2 ^ 24 := by
    rw [abs_of_nonneg (Int.natCast_nonneg n)]
    exact_mod_cast h
  have := binary64.rnd_of_rep (n : ℤ) 0 (lt_of_lt_of_le h2 (by decide)) (by decide)
  simpa using this

theorem rnd64_half : binary64.rnd (1 / 2) = 1 / 2 := by
  have := binary64.rnd_of_rep 1 (-1) (by decide) (by decide)
  norm_num at this ⊢
  exact this

theorem rnd64_ten : binary64.rnd 10 = 10 := by
  have := rnd64_nat 10 (by norm_num)
  simpa using this

theorem roundingTerm64 : roundingTerm binary64 2 = 5764607523034235 / 1152921504606846976 := by
  have h1 : binary64.rnd (1 / 2 / 10) = 3602879701896397 / 72057594037927936 := by
    rw [binary64.rnd_eval (1 / 2 / 10) (-5) 7205759403792794 (-57) (by decide) (by decide)
      (by norm_num) (by norm_num) (by norm_num) (by norm_num)]
    norm_num
  have h2 : binary64.rnd (3602879701896397 / 72057594037927936 / 10) = 5764607523034235 / 1152921504606846976 := by
    rw [binary64.rnd_eval (3602879701896397 / 72057594037927936 / 10) (-8) 5764607523034235 (-60) (by decide) (by decide)
      (by norm_num) (by norm_num) (by norm_num) (by norm_num)]
    norm_num
  simp only [roundingTerm, rnd64_half, rnd64_ten, h1, h2]

theorem printFloat64_double_10285 : printFloat binary64 (2894970135469097 / 281474976710656) 2 = "10.29" := by
  have hy : binary64.rnd (2894970135469097 / 281474976710656 + 5764607523034235 / 1152921504606846976) = 5792755020705301 / 562949953421312 := by
    rw [binary64.rnd_eval (2894970135469097 / 281474976710656 + 5764607523034235 / 1152921504606846976) 3 5792755020705301 (-49) (by decide) (by decide)
      (by norm_num) (by norm_num) (by norm_num) (by norm_num)]
    norm_num
  have hr : binary64.rnd (5792755020705301 / 562949953421312 - 10) = 163255486492181 / 562949953421312 := by
    rw [binary64.rnd_eval (5792755020705301 / 562949953421312 - 10) (-2) 5224175567749792 (-54) (by decide) (by decide)
      (by norm_num) (by norm_num) (by norm_num) (by norm_num)]
    norm_num
  have hs0 : binary64.rnd (163255486492181 / 562949953421312 * 10) = 816277432460905 / 281474976710656 := by
    rw [binary64.rnd_eval (163255486492181 / 562949953421312 * 10) 1 6530219459687240 (-51) (by decide) (by decide)
      (by norm_num) (by norm_num) (by norm_num) (by norm_num)]
    norm_num
  have ht0 : binary64.rnd (816277432460905 / 281474976710656 - 2) = 253327479039593 / 281474976710656 := by
    rw [binary64.rnd_eval (816277432460905 / 281474976710656 - 2) (-1) 8106479329266976 (-53) (by decide) (by decide)
      (by norm_num) (by norm_num) (by norm_num) (by norm_num)]
    norm_num
  have hs1 : binary64.rnd (253327479039593 / 281474976710656 * 10) = 1266637395197965 / 140737488355328 := by
    rw [binary64.rnd_eval (253327479039593 / 281474976710656 * 10) 3 5066549580791860 (-49) (by decide) (by decide)
      (by norm_num) (by norm_num) (by norm_num) (by norm_num)]
    norm_num
  have ht1 : binary64.rnd (1266637395197965 / 140737488355328 - 9) = 13 / 140737488355328 := by
    rw [binary64.rnd_eval (1266637395197965 / 140737488355328 - 9) (-44) 7318349394477056 (-96) (by decide) (by decide)
      (by norm_num) (by norm_num) (by norm_num) (by norm_num)]
    norm_num
  rw [printFloat_two binary64 (2894970135469097 / 281474976710656) (5792755020705301 / 562949953421312) (163255486492181 / 562949953421312) 10 (by norm_num) (by norm_num)
    (by rw [roundingTerm64]; exact hy)
    (by rw [floor_toNat_eq (5792755020705301 / 562949953421312) 10 (by norm_num) (by norm_num)])
    (by rw [rnd64_nat 10 (by norm_num)]; exact_mod_cast hr)]
  rw [fracDigits_step binary64 1 (163255486492181 / 562949953421312) (816277432460905 / 281474976710656) (253327479039593 / 281474976710656) 2
    (by rw [rnd64_ten]; exact hs0)
    (by rw [floor_toNat_eq (816277432460905 / 281474976710656) 2 (by norm_num) (by norm_num)])
    (by rw [rnd64_nat 2 (by norm_num)]; exact_mod_cast ht0)]
  rw [fracDigits_step binary64 0 (253327479039593 / 281474976710656) (1266637395197965 / 140737488355328) (13 / 140737488355328) 9
    (by rw [rnd64_ten]; exact hs1)
    (by rw [floor_toNat_eq (1266637395197965 / 140737488355328) 9 (by norm_num) (by norm_num)])
    (by rw [rnd64_nat 9 (by norm_num)]; exact_mod_cast ht1)]
  rfl

theorem serialText_telemetry (T : Target) (eol : String) (x : ℚ) :
    serialText T eol (telemetry x) =
      "Distance" ++ printFloat T.double (T.double.rnd x) 2 ++ "CM" ++ eol := by
  simp [telemetry, serialText, String.append_assoc]

/-- The spec's `Distance10.29CM` is the line of the exact decimal 10.285 held in a binary64
`double`, a value the `float distance` of line 71 cannot take. -/
theorem serialText_double_10285 (eol : String) :
    serialText .wide eol (telemetry (10285 / 1000)) = "Distance10.29CM" ++ eol := by
  have h : binary64.rnd (10285 / 1000) = 2894970135469097 / 281474976710656 := by
    rw [binary64.rnd_eval (10285 / 1000) 3 5789940270938194 (-49) (by decide) (by decide)
      (by norm_num) (by norm_num) (by norm_num) (by norm_num)]
    norm_num
  rw [serialText_telemetry]
  show "Distance" ++ printFloat binary64 (binary64.rnd (10285 / 1000)) 2 ++ "CM" ++ eol =
    "Distance10.29CM" ++ eol
  rw [h, printFloat64_double_10285]
  rfl

/-! ## Claims -/

/-- C1: one execution of `loop()` commands the servo to 180 when `d * 0.01715 <= 15.0` and to 0
otherwise, for every duration `d` and both widths of `double`; the comparison holds for the
exact product, for the spec's expression evaluated in floating point, and for the `float` the
code compares.  Duration 600 gives the `float` nearest to 10.29 and angle 180; duration 2000
gives the `float` nearest to 34.3 and angle 0. -/
theorem C1_threshold_correctness :
    (∀ (T : Target) (d : ℤ),
      servoWrites (loop T d) = [if (d : ℚ) * (1715 / 100000) ≤ 15 then 180 else 0]) ∧
    (∀ (T : Target) (d : ℤ), distance T d ≤ 15 ↔ (d : ℚ) * (1715 / 100000) ≤ 15) ∧
    (∀ (T : Target) (d : ℤ), distanceSpec T d ≤ 15 ↔ (d : ℚ) * (1715 / 100000) ≤ 15) ∧
    (∀ T : Target, distance T 600 = binary32.rnd (1029 / 100) ∧
      |distance T 600 - 1029 / 100| < 1 / 10000000 ∧ servoWrites (loop T 600) = [180]) ∧
    (∀ T : Target, distance T 2000 = binary32.rnd (343 / 10) ∧
      |distance T 2000 - 343 / 10| < 1 / 1000000 ∧ servoWrites (loop T 2000) = [0]) := by
  have key : ∀ (T : Target) (d : ℤ), distance T d ≤ 15 ↔ (d : ℚ) * (1715 / 100000) ≤ 15 := by
    intro T d
    rw [exact_le_iff]
    constructor
    · intro h
      by_contra hn
      have := distance_ge_of_ge T d (by omega)
      linarith
    · intro h
      have := distance_le_of_le T d h
      linarith
  refine ⟨?_, key, ?_, ?_, ?_⟩
  · intro T d
    by_cases h : (d : ℚ) * (1715 / 100000) ≤ 15
    · rw [if_pos h, servoWrites_loop_of_le T d ((exact_le_iff d).1 h)]
    · rw [if_neg h]
      have : ¬ d ≤ 874 := fun hd => h ((exact_le_iff d).2 hd)
      rw [servoWrites_loop_of_ge T d (by omega)]
  · intro T d
    rw [← distance_eq_distanceSpec]
    exact key T d
  · intro T
    refine ⟨by rw [distance_600, rnd32_1029], ?_, servoWrites_loop_of_le T 600 (by norm_num)⟩
    rw [distance_600, abs_lt]
    constructor <;> norm_num
  · intro T
    refine ⟨by rw [distance_2000, rnd32_343], ?_, servoWrites_loop_of_ge T 2000 (by norm_num)⟩
    rw [distance_2000, abs_lt]
    constructor <;> norm_num

/-- C2: in every execution of `loop()` the events before the echo measurement are exactly
drive HIGH, wait 2 microseconds, drive LOW, wait 10 microseconds, drive HIGH; the measurement
follows them; no write to the trigger pin happens after it, so the trigger writes of the cycle
are HIGH, LOW, HIGH. -/
theorem C2_trigger_sequence (T : Target) (d : ℤ) :
    beforeMeasure (loop T d) =
      [.digitalWrite trg_pin .HIGH, .delayMicroseconds 2, .digitalWrite trg_pin .LOW,
       .delayMicroseconds 10, .digitalWrite trg_pin .HIGH] ∧
    loop T d = beforeMeasure (loop T d) ++ .pulseIn ech_pin .HIGH :: afterMeasure (loop T d) ∧
    trgWrites (afterMeasure (loop T d)) = [] ∧
    trgWrites (loop T d) = [.HIGH, .LOW, .HIGH] := by
  refine ⟨beforeMeasure_loop T d, ?_, ?_, ?_⟩
  · rw [beforeMeasure_loop, afterMeasure_loop]
    simp [loop]
  · rw [afterMeasure_loop]
    rcases servoStep_cases (distance T d) with h | h <;> simp [h, trgWrites]
  · rcases servoStep_cases (distance T d) with h | h <;> simp [loop, h, trgWrites]

/-- C4: for every duration and both widths of `double`, the distance computed by line 71 is
the value of `duration * 0.01715` and of `duration * 0.0343 / 2` evaluated in the same
floating-point arithmetic, it lies within a relative `2 ^ (-21)` of the exact product
`duration * 0.01715`, and it is the value the cycle thresholds and prints. -/
theorem C4_distance_formula (T : Target) (d : ℤ) :
    distance T d = distanceSpec T d ∧
    distance T d = distanceDoc T d ∧
    |distance T d - (d : ℚ) * (1715 / 100000)| ≤ |(d : ℚ)| * (1715 / 100000) / 2097152 ∧
    afterMeasure (loop T d) =
      servoStep (distance T d) ++
        [.serialPrint "Distance", .serialPrintFloat (distance T d), .serialPrintln "CM",
         .delay 100] :=
  ⟨distance_eq_distanceSpec T d, distance_eq_distanceDoc T d, distance_close T d,
    afterMeasure_loop T d⟩

/-- C5: a measured duration of 0 gives distance 0 and the cycle is the usual eleven events:
the trigger sequence, the measurement, `myservo.write(180)`, the three telemetry calls with
value 0, and `delay(100)`; nothing else is issued. -/
theorem C5_zero_duration (T : Target) :
    distance T 0 = 0 ∧
    loop T 0 =
      [.digitalWrite trg_pin .HIGH, .delayMicroseconds 2, .digitalWrite trg_pin .LOW,
       .delayMicroseconds 10, .digitalWrite trg_pin .HIGH, .pulseIn ech_pin .HIGH,
       .servoWrite 180,
       .serialPrint "Distance", .serialPrintFloat 0, .serialPrintln "CM", .delay 100] := by
  have h0 : distance T 0 = 0 := by simp [distance, Fmt.rnd_zero]
  refine ⟨h0, ?_⟩
  simp [loop, h0, servoStep]

/-- C6: the decision of lines 72-77 is inclusive: distance exactly 15 selects
`myservo.write(180)`, every distance above 15 selects `myservo.write(0)`, and in a cycle a
computed distance of at most 15 commands 180 while one above 15 commands 0. -/
theorem C6_inclusive_boundary :
    servoStep 15 = [.servoWrite 180] ∧
    (∀ x : ℚ, 15 < x → servoStep x = [.servoWrite 0]) ∧
    (∀ (T : Target) (d : ℤ), distance T d ≤ 15 → servoWrites (loop T d) = [180]) ∧
    (∀ (T : Target) (d : ℤ), 15 < distance T d → servoWrites (loop T d) = [0]) := by
  refine ⟨servoStep_of_le le_rfl, fun x hx => servoStep_of_lt hx, ?_, ?_⟩
  · intro T d h
    rw [servoWrites_loop, servoStep_of_le h]; rfl
  · intro T d h
    rw [servoWrites_loop, servoStep_of_lt h]; rfl

/-- Witness for C6 at distance 16 and at durations 874 and 875. -/
theorem C6_inclusive_boundary_witness :
    servoStep 16 = [.servoWrite 0] ∧ servoWrites (loop .avr 874) = [180] ∧
      servoWrites (loop .wide 875) = [0] :=
  ⟨C6_inclusive_boundary.2.1 16 (by norm_num),
    C6_inclusive_boundary.2.2.1 .avr 874
      (le_trans (distance_le_of_le .avr 874 (by norm_num)) (by norm_num)),
    C6_inclusive_boundary.2.2.2 .wide 875
      (lt_of_lt_of_le (by norm_num) (distance_ge_of_ge .wide 875 (by norm_num)))⟩

/-- C7: every execution of `loop()` issues exactly one servo command, with angle 0 or 180; in
a whole run (`setup()` followed by any number of cycles) every commanded angle is 0 or 180 and
there is one command per cycle. -/
theorem C7_two_angles :
    (∀ (T : Target) (d : ℤ),
      servoWrites (loop T d) = [0] ∨ servoWrites (loop T d) = [180]) ∧
    (∀ (T : Target) (ds : List ℤ), ∀ a ∈ servoWrites (program T ds), a = 0 ∨ a = 180) ∧
    (∀ (T : Target) (ds : List ℤ), (servoWrites (program T ds)).length = ds.length) := by
  have hs : ∀ (T : Target) (ds : List ℤ),
      servoWrites (program T ds) = servoWrites (cycles T ds) := by
    intro T ds
    simp [program, setup, servoWrites_append, servoWrites]
  refine ⟨?_, ?_, ?_⟩
  · intro T d
    rw [servoWrites_loop]
    rcases servoStep_cases (distance T d) with h | h <;> simp [h, servoWrites]
  · intro T ds
    rw [hs]
    exact (servoWrites_cycles T ds).1
  · intro T ds
    rw [hs]
    exact (servoWrites_cycles T ds).2

/-- Witness for C7 on a run of three cycles. -/
theorem C7_two_angles_witness :
    servoWrites (program .avr [600, 2000, 0]) = [180, 0, 180] ∧
      ((180 : ℤ) = 0 ∨ (180 : ℤ) = 180) := by
  have h : servoWrites (program .avr [600, 2000, 0]) = [180, 0, 180] := by
    simp only [program, cycles, setup, servoWrites_append, List.append_nil,
      servoWrites_loop_of_le Target.avr 600 (by norm_num),
      servoWrites_loop_of_ge Target.avr 2000 (by norm_num),
      servoWrites_loop_of_le Target.avr 0 (by norm_num)]
    rfl
  exact ⟨h, C7_two_angles.2.1 .avr [600, 2000, 0] 180 (by rw [h]; simp)⟩

/-- C8: every execution of `loop()` ends with `delay(100)`, issued after the servo command and
the three telemetry calls; in a run of consecutive cycles the delay accumulated between the
starts of two consecutive cycles is at least 100 ms (100000 microseconds). -/
theorem C8_pacing :
    (∀ (T : Target) (d : ℤ), ∃ pre : List Event,
      loop T d = pre ++ [.delay 100] ∧
      servoWrites pre = servoWrites (loop T d) ∧ (servoWrites pre).length = 1 ∧
      serialEvents pre =
        [.serialPrint "Distance", .serialPrintFloat (distance T d), .serialPrintln "CM"]) ∧
    (∀ (T : Target) (ds : List ℤ) (n : ℕ), n < ds.length →
      startOf T ds n + 100000 ≤ startOf T ds (n + 1)) := by
  constructor
  · intro T d
    refine ⟨[.digitalWrite trg_pin .HIGH, .delayMicroseconds 2, .digitalWrite trg_pin .LOW,
       .delayMicroseconds 10, .digitalWrite trg_pin .HIGH, .pulseIn ech_pin .HIGH]
      ++ servoStep (distance T d)
      ++ [.serialPrint "Distance", .serialPrintFloat (distance T d), .serialPrintln "CM"],
      ?_, ?_, ?_, ?_⟩
    · simp [loop]
    · rcases servoStep_cases (distance T d) with h | h <;> simp [loop, h, servoWrites]
    · rcases servoStep_cases (distance T d) with h | h <;> simp [h, servoWrites]
    · rcases servoStep_cases (distance T d) with h | h <;> simp [h, serialEvents]
  · intro T ds n h
    rw [startOf_succ T ds n h]
    omega

/-- Witness for C8 on the first two cycles of a run. -/
theorem C8_pacing_witness :
    startOf .avr [600, 2000] 0 + 100000 ≤ startOf .avr [600, 2000] 1 :=
  C8_pacing.2 .avr [600, 2000] 0 (by decide)

/-- C9, the code as written: before the measurement the trigger line completes one HIGH pulse,
2 microseconds wide; the 10 microsecond wait is spent at LOW, and the line is HIGH, not LOW,
when `pulseIn` is called. -/
theorem C9_trigger_pulse_in_code (T : Target) (d : ℤ) :
    (trgAtMeasure (loop T d)).pulses = [2] ∧
    (trgAtMeasure (loop T d)).level = some .HIGH ∧
    (trgAtMeasure (loop T d)).held = 0 := by
  unfold trgAtMeasure
  rw [beforeMeasure_loop]
  simp [TrgState.step, trg_pin]

/-- C10: over integer durations the threshold is the cutoff 874: `loop()` commands 180
exactly when `d <= 874` and 0 exactly when `d >= 875`, negative durations included; 874 gives
180, 875 gives 0; and no integer duration gives a distance of exactly 15. -/
theorem C10_integer_cutoff :
    (∀ (T : Target) (d : ℤ), servoWrites (loop T d) = [180] ↔ d ≤ 874) ∧
    (∀ (T : Target) (d : ℤ), servoWrites (loop T d) = [0] ↔ 875 ≤ d) ∧
    (∀ T : Target, servoWrites (loop T 874) = [180]) ∧
    (∀ T : Target, servoWrites (loop T 875) = [0]) ∧
    (∀ (T : Target) (d : ℤ), distance T d ≠ 15) := by
  refine ⟨?_, ?_, fun T => servoWrites_loop_of_le T 874 le_rfl,
    fun T => servoWrites_loop_of_ge T 875 le_rfl, ?_⟩
  · intro T d
    constructor
    · intro h
      by_contra hn
      rw [servoWrites_loop_of_ge T d (by omega)] at h
      simp at h
    · exact servoWrites_loop_of_le T d
  · intro T d
    constructor
    · intro h
      by_contra hn
      rw [servoWrites_loop_of_le T d (by omega)] at h
      simp at h
    · exact servoWrites_loop_of_ge T d
  · intro T d h
    rcases (by omega : d ≤ 874 ∨ 875 ≤ d) with hd | hd
    · have := distance_le_of_le T d hd
      rw [h] at this
      norm_num at this
    · have := distance_ge_of_ge T d hd
      rw [h] at this
      norm_num at this
